import Mathlib

/- Verification development for calculate_HIC from headInjuryCriteria.py.

   Sample times, accelerations and the window parameters tmin/tmax are
   modelled as exact rationals.  The HIC score involves the real power 2.5
   (numpy np.power(integ/dt, 2.5)), so scores are modelled as real numbers
   while everything the search indexes on (times, durations, integrals)
   stays rational.  The fallible entry point returns Except. -/

/-- Error raised by the parameter assertions at the top of calculate_HIC
(`assert tmin > 0` and `assert tmax > tmin`); the specification calls this
class of failures ValidationError. -/
inductive ValidationError : Type where
  | invalidWindow : ValidationError
deriving DecidableEq

/-- Result tuple shape of calculate_HIC: (HIC score, t1, t2). -/
abbrev Triple : Type := ℝ × ℚ × ℚ

/-- Helper for scipy.integrate.cumtrapz: given the running accumulator and the
previous sample (x0, y0), emits the remaining cumulative trapezoid sums. -/
def cumtrapzAux (acc x0 y0 : ℚ) : List ℚ → List ℚ → List ℚ
  | x1 :: xs, y1 :: ys =>
      (acc + (y0 + y1) / 2 * (x1 - x0)) ::
        cumtrapzAux (acc + (y0 + y1) / 2 * (x1 - x0)) x1 y1 xs ys
  | _, _ => []

/-- scipy.integrate.cumtrapz(y, x, initial=0): cumulative trapezoidal
integral of y over x, starting from 0, one output value per sample. -/
def cumtrapz (x y : List ℚ) : List ℚ :=
  match x, y with
  | x0 :: xs, y0 :: ys => 0 :: cumtrapzAux 0 x0 y0 xs ys
  | _, _ => []

/-- np.linspace(a, b, num): num equally spaced values from a to b inclusive. -/
def linspace (a b : ℚ) (num : ℕ) : List ℚ :=
  (List.range num).map (fun j : ℕ => a + (j : ℚ) * (b - a) / ((num : ℚ) - 1))

/-- Helper for np.interp: (x0, f0) is the last sample point known to lie at or
before x; walks the remaining points looking for the bracketing interval and
clamps to the final value past the right end. -/
def interpAux (x x0 f0 : ℚ) : List ℚ → List ℚ → ℚ
  | x1 :: xs, f1 :: fs =>
      if x ≤ x1 then f0 + (f1 - f0) * (x - x0) / (x1 - x0)
      else interpAux x x1 f1 xs fs
  | _, _ => f0

/-- np.interp(x, xp, fp): piecewise-linear interpolation through the points
(xp, fp) with clamping to fp's end values outside the xp range (xp is assumed
increasing, as numpy requires). -/
def interp (x : ℚ) (xp fp : List ℚ) : ℚ :=
  match xp, fp with
  | x0 :: xs, f0 :: fs => if x ≤ x0 then f0 else interpAux x x0 f0 xs fs
  | _, _ => 0

/-- One entry of the numpy expression dt*np.power(integ/dt, 2.5): the HIC
score of a window of duration d whose velocity change is c. -/
noncomputable def hicScore (c d : ℚ) : ℝ :=
  (d : ℝ) * ((c : ℝ) / (d : ℝ)) ^ (2.5 : ℝ)

/-- Lexicographic strict order on pairs, given a strict order on the second
component; first components are compared with the ambient order. -/
def plex {α β : Type} [LT α] (s : β → β → Prop) (a b : α × β) : Prop :=
  a.1 < b.1 ∨ (a.1 = b.1 ∧ s a.2 b.2)

/-- Python's strict `<` on the result tuples (score, t1, t2). -/
def lexLt : Triple → Triple → Prop :=
  plex (plex (fun a b : ℚ => a < b))

/-- Nonstrict companion of lexLt. -/
def lexLe (a b : Triple) : Prop := ¬ lexLt b a

open Classical in
/-- Python max(m, c) on tuples: returns c exactly when c is strictly larger
than m in the lexicographic tuple order, otherwise keeps m. -/
noncomputable def pymax (m c : Triple) : Triple := if lexLt m c then c else m

/-- Maximum value of a list (head-seeded fold, matching np.max on a nonempty
array). -/
noncomputable def listMax : List ℝ → ℝ
  | [] => 0
  | a :: rest => rest.foldl max a

/-- np.argmax: index of the first occurrence of the maximum value. -/
noncomputable def argmaxIdx : List ℝ → ℕ
  | [] => 0
  | [_] => 0
  | a :: b :: rest => if listMax (b :: rest) ≤ a then 0 else argmaxIdx (b :: rest) + 1

/-- One direction of the inner loop body of calculate_HIC: keep the entries of
integ that are strictly positive, score them, and take the first-max index.
Note that amax indexes the filtered score array while t2 is read from the
unfiltered duration array with the same index, exactly as in the source
(`t2[amax]` with `amax = np.argmax(HIC)` over the filtered `HIC`). -/
noncomputable def windowCand (t1 : ℚ) (dtL integ : List ℚ) : Option Triple :=
  let pairs := (dtL.zip integ).filter (fun p => 0 < p.2)
  if pairs.isEmpty then none
  else
    let hic := pairs.map (fun p => hicScore p.2 p.1)
    some (hic.getD (argmaxIdx hic) 0, t1, t1 + dtL.getD (argmaxIdx hic) 0)

/-- Fold one optional candidate into the running maximum with update rule upd. -/
noncomputable def optUpdW (upd : Triple → Triple → Triple) (m : Triple) :
    Option Triple → Triple
  | some c => upd m c
  | none => m

/-- Body of the outer loop of calculate_HIC for one sample (t1, i1): builds the
array of interpolated integral deltas over the candidate end times t1 + d,
then folds in the candidate of each polarity direction (raw delta first, its
negation second), parametrized by the running-maximum update rule. -/
noncomputable def stepWin (upd : Triple → Triple → Triple)
    (time cumintegral dtL : List ℚ) (m : Triple) (ti : ℚ × ℚ) : Triple :=
  let integ := dtL.map (fun d => interp (ti.1 + d) time cumintegral - ti.2)
  optUpdW upd (optUpdW upd m (windowCand ti.1 dtL integ))
    (windowCand ti.1 dtL (integ.map (fun z => -z)))

/-- The full search loop of calculate_HIC, parametrized by the running-maximum
update rule: fold over the samples zipped with their cumulative integrals,
starting from the sentinel (0, 0, 0). -/
noncomputable def searchW (upd : Triple → Triple → Triple)
    (time g : List ℚ) (tmax tmin : ℚ) : Triple :=
  (time.zip (cumtrapz time g)).foldl
    (stepWin upd time (cumtrapz time g) (linspace tmin tmax 100)) (0, 0, 0)

/-- calculate_HIC(time, g, tmax, tmin) from headInjuryCriteria.py: cumulative
trapezoidal integral, parameter assertions, then the windowed extremum search
over 100 linspace durations with the Python tuple max as update rule. -/
noncomputable def calculate_HIC (time g : List ℚ) (tmax tmin : ℚ) :
    Except ValidationError Triple :=
  if 0 < tmin then
    if tmin < tmax then .ok (searchW pymax time g tmax tmin)
    else .error .invalidWindow
  else .error .invalidWindow

open Classical in
/-- Modelled from the spec: a running-maximum update that compares candidates
on the score component alone and keeps the incumbent (first-encountered)
candidate on ties, used as the refinement target for the tie-break claim. -/
noncomputable def scoreOnlyMax (m c : Triple) : Triple := if m.1 < c.1 then c else m

/-- Modelled from the spec: calculate_HIC with the running maximum replaced by
the score-only, first-encountered-wins update the spec describes. -/
noncomputable def calculate_HIC_scoreTie (time g : List ℚ) (tmax tmin : ℚ) :
    Except ValidationError Triple :=
  if 0 < tmin then
    if tmin < tmax then .ok (searchW scoreOnlyMax time g tmax tmin)
    else .error .invalidWindow
  else .error .invalidWindow

/-- The (zero, one or two) candidates the loop body examines at one sample. -/
noncomputable def candsAt (time cumintegral dtL : List ℚ) (ti : ℚ × ℚ) :
    List Triple :=
  let integ := dtL.map (fun d => interp (ti.1 + d) time cumintegral - ti.2)
  (windowCand ti.1 dtL integ).toList ++
    (windowCand ti.1 dtL (integ.map (fun z => -z))).toList

/-- All candidates the search examines, in scan order. -/
noncomputable def candList (time g : List ℚ) (tmax tmin : ℚ) : List Triple :=
  (time.zip (cumtrapz time g)).flatMap
    (candsAt time (cumtrapz time g) (linspace tmin tmax 100))

/-- Strictly increasing sample times (the documented precondition). -/
def strictIncr (l : List ℚ) : Prop := l.Pairwise (fun a b => a < b)

/-! Order facts for the Python tuple comparison. -/

theorem plex_irrefl {α β : Type} [LinearOrder α] {s : β → β → Prop}
    (hs : ∀ b, ¬ s b b) (a : α × β) : ¬ plex s a a := by
  rintro (h | ⟨-, h⟩)
  · exact lt_irrefl _ h
  · exact hs _ h

theorem plex_trans {α β : Type} [LinearOrder α] {s : β → β → Prop}
    (hs : ∀ x y z, s x y → s y z → s x z) :
    ∀ a b c : α × β, plex s a b → plex s b c → plex s a c := by
  rintro ⟨a1, a2⟩ ⟨b1, b2⟩ ⟨c1, c2⟩ (h1 | ⟨e1, h1⟩) (h2 | ⟨e2, h2⟩)
  · exact Or.inl (lt_trans h1 h2)
  · exact Or.inl (e2 ▸ h1)
  · exact Or.inl (e1 ▸ h2)
  · exact Or.inr ⟨e1.trans e2, hs _ _ _ h1 h2⟩

theorem plex_connex {α β : Type} [LinearOrder α] {s : β → β → Prop}
    (hs : ∀ x y, ¬ s x y → ¬ s y x → x = y) :
    ∀ a b : α × β, ¬ plex s a b → ¬ plex s b a → a = b := by
  rintro ⟨a1, a2⟩ ⟨b1, b2⟩ h1 h2
  have e1 : a1 = b1 := by
    rcases lt_trichotomy a1 b1 with h | h | h
    · exact absurd (Or.inl h) h1
    · exact h
    · exact absurd (Or.inl h) h2
  subst e1
  have s1 : ¬ s a2 b2 := fun hc => h1 (Or.inr ⟨rfl, hc⟩)
  have s2 : ¬ s b2 a2 := fun hc => h2 (Or.inr ⟨rfl, hc⟩)
  exact congrArg (Prod.mk a1) (hs _ _ s1 s2)

theorem lexLt_irrefl (a : Triple) : ¬ lexLt a a :=
  plex_irrefl (fun b => plex_irrefl (fun q => lt_irrefl q) b) a

theorem lexLt_trans {a b c : Triple} (h1 : lexLt a b) (h2 : lexLt b c) :
    lexLt a c := by
  have inner : ∀ x y z : ℚ × ℚ, plex (fun a b : ℚ => a < b) x y →
      plex (fun a b : ℚ => a < b) y z → plex (fun a b : ℚ => a < b) x z :=
    plex_trans (fun _ _ _ hx hy => lt_trans hx hy)
  exact plex_trans inner a b c h1 h2

theorem lexLt_connex {a b : Triple} (h1 : ¬ lexLt a b) (h2 : ¬ lexLt b a) :
    a = b :=
  plex_connex (plex_connex (fun _ _ hx hy => le_antisymm (not_lt.mp hy) (not_lt.mp hx)))
    a b h1 h2

theorem lexLt_asymm {a b : Triple} (h : lexLt a b) : ¬ lexLt b a :=
  fun hc => lexLt_irrefl a (lexLt_trans h hc)

theorem lexLe_refl (a : Triple) : lexLe a a := lexLt_irrefl a

theorem lexLe_trans {a b c : Triple} (h1 : lexLe a b) (h2 : lexLe b c) :
    lexLe a c := by
  intro hc
  by_cases hab : lexLt a b
  · exact h2 (lexLt_trans hc hab)
  · exact h2 ((lexLt_connex hab h1) ▸ hc)

theorem lexLe_antisymm {a b : Triple} (h1 : lexLe a b) (h2 : lexLe b a) :
    a = b := lexLt_connex h2 h1

theorem pymax_eq_or (m c : Triple) : pymax m c = m ∨ pymax m c = c := by
  unfold pymax
  split
  · exact Or.inr rfl
  · exact Or.inl rfl

theorem lexLe_pymax_left (m c : Triple) : lexLe m (pymax m c) := by
  unfold pymax
  split
  · exact lexLt_asymm (by assumption)
  · exact lexLe_refl m

theorem lexLe_pymax_right (m c : Triple) : lexLe c (pymax m c) := by
  unfold pymax
  split
  · exact lexLe_refl c
  · assumption

theorem pymax_right_comm (m x y : Triple) :
    pymax (pymax m x) y = pymax (pymax m y) x := by
  have humx : lexLe m (pymax (pymax m x) y) :=
    lexLe_trans (lexLe_pymax_left m x) (lexLe_pymax_left (pymax m x) y)
  have hux : lexLe x (pymax (pymax m x) y) :=
    lexLe_trans (lexLe_pymax_right m x) (lexLe_pymax_left (pymax m x) y)
  have huy : lexLe y (pymax (pymax m x) y) := lexLe_pymax_right (pymax m x) y
  have hvmy : lexLe m (pymax (pymax m y) x) :=
    lexLe_trans (lexLe_pymax_left m y) (lexLe_pymax_left (pymax m y) x)
  have hvy : lexLe y (pymax (pymax m y) x) :=
    lexLe_trans (lexLe_pymax_right m y) (lexLe_pymax_left (pymax m y) x)
  have hvx : lexLe x (pymax (pymax m y) x) := lexLe_pymax_right (pymax m y) x
  have hu : lexLe (pymax (pymax m x) y) (pymax (pymax m y) x) := by
    rcases pymax_eq_or (pymax m x) y with h | h
    · rcases pymax_eq_or m x with h' | h'
      · rw [h, h']; exact hvmy
      · rw [h, h']; exact hvx
    · rw [h]; exact hvy
  have hv : lexLe (pymax (pymax m y) x) (pymax (pymax m x) y) := by
    rcases pymax_eq_or (pymax m y) x with h | h
    · rcases pymax_eq_or m y with h' | h'
      · rw [h, h']; exact humx
      · rw [h, h']; exact huy
    · rw [h]; exact hux
  exact lexLe_antisymm hu hv

theorem foldl_pymax_init_or_mem (l : List Triple) (m : Triple) :
    l.foldl pymax m = m ∨ l.foldl pymax m ∈ l := by
  induction l generalizing m with
  | nil => exact Or.inl rfl
  | cons a t ih =>
    rcases ih (pymax m a) with h | h
    · rcases pymax_eq_or m a with h' | h'
      · rw [List.foldl_cons, h, h']
        exact Or.inl rfl
      · rw [List.foldl_cons, h, h']
        exact Or.inr (List.mem_cons_self a t)
    · rw [List.foldl_cons]
      exact Or.inr (List.mem_cons_of_mem a h)

theorem foldl_pymax_le_init (l : List Triple) (m : Triple) :
    lexLe m (l.foldl pymax m) := by
  induction l generalizing m with
  | nil => exact lexLe_refl m
  | cons a t ih => exact lexLe_trans (lexLe_pymax_left m a) (ih (pymax m a))

theorem foldl_pymax_le_mem (l : List Triple) (m : Triple) :
    ∀ c ∈ l, lexLe c (l.foldl pymax m) := by
  induction l generalizing m with
  | nil => intro c hc; cases hc
  | cons a t ih =>
    intro c hc
    rcases List.mem_cons.mp hc with h | h
    · subst h
      exact lexLe_trans (lexLe_pymax_right m c) (foldl_pymax_le_init t (pymax m c))
    · exact ih (pymax m a) c h

/-! The search as a fold of pymax over the candidate list. -/

theorem stepWin_eq_foldl (time cumintegral dtL : List ℚ) (m : Triple) (ti : ℚ × ℚ) :
    stepWin pymax time cumintegral dtL m ti =
      (candsAt time cumintegral dtL ti).foldl pymax m := by
  simp only [stepWin, candsAt]
  cases windowCand ti.1 dtL (dtL.map fun d => interp (ti.1 + d) time cumintegral - ti.2) with
  | none =>
    cases windowCand ti.1 dtL
        ((dtL.map fun d => interp (ti.1 + d) time cumintegral - ti.2).map fun z => -z) with
    | none => simp [optUpdW]
    | some c => simp [optUpdW]
  | some c =>
    cases windowCand ti.1 dtL
        ((dtL.map fun d => interp (ti.1 + d) time cumintegral - ti.2).map fun z => -z) with
    | none => simp [optUpdW]
    | some c' => simp [optUpdW]

theorem foldl_pymax_flatMap (f : ℚ × ℚ → List Triple) (l : List (ℚ × ℚ)) (m : Triple) :
    (l.flatMap f).foldl pymax m = l.foldl (fun acc ti => (f ti).foldl pymax acc) m := by
  induction l generalizing m with
  | nil => rfl
  | cons a t ih =>
    rw [List.flatMap_cons, List.foldl_append, List.foldl_cons, ih]

theorem searchW_eq_candList (time g : List ℚ) (tmax tmin : ℚ) :
    searchW pymax time g tmax tmin = (candList time g tmax tmin).foldl pymax (0, 0, 0) := by
  unfold searchW candList
  rw [foldl_pymax_flatMap]
  have hfun : stepWin pymax time (cumtrapz time g) (linspace tmin tmax 100) =
      fun acc ti =>
        (candsAt time (cumtrapz time g) (linspace tmin tmax 100) ti).foldl pymax acc :=
    funext fun m => funext fun ti => stepWin_eq_foldl _ _ _ m ti
  rw [hfun]

theorem searchW_sentinel_or_mem (time g : List ℚ) (tmax tmin : ℚ) :
    searchW pymax time g tmax tmin = (0, 0, 0) ∨
      searchW pymax time g tmax tmin ∈ candList time g tmax tmin := by
  rw [searchW_eq_candList]
  exact foldl_pymax_init_or_mem _ _

theorem searchW_upper_bound (time g : List ℚ) (tmax tmin : ℚ) :
    ∀ c ∈ candList time g tmax tmin, lexLe c (searchW pymax time g tmax tmin) := by
  rw [searchW_eq_candList]
  exact foldl_pymax_le_mem _ _

/-! Score algebra and negation symmetry of the building blocks. -/

theorem hicScore_pos {c d : ℚ} (hc : 0 < c) (hd : 0 < d) : 0 < hicScore c d := by
  unfold hicScore
  have hd' : (0 : ℝ) < (d : ℝ) := by exact_mod_cast hd
  have hc' : (0 : ℝ) < (c : ℝ) := by exact_mod_cast hc
  exact mul_pos hd' (Real.rpow_pos_of_pos (div_pos hc' hd') _)

theorem hicScore_eq_rpow {c d : ℚ} (hc : 0 < c) (hd : 0 < d) :
    hicScore c d = (c : ℝ) ^ (2.5 : ℝ) * ((d : ℝ) ^ (1.5 : ℝ))⁻¹ := by
  unfold hicScore
  have hd' : (0 : ℝ) < (d : ℝ) := by exact_mod_cast hd
  have hc' : (0 : ℝ) < (c : ℝ) := by exact_mod_cast hc
  have hne : (d : ℝ) ≠ 0 := ne_of_gt hd'
  have h15 : (0 : ℝ) < (d : ℝ) ^ (1.5 : ℝ) := Real.rpow_pos_of_pos hd' _
  rw [Real.div_rpow hc'.le hd'.le]
  rw [show ((d : ℝ) ^ (2.5 : ℝ)) = (d : ℝ) ^ (1.5 : ℝ) * (d : ℝ) from by
    rw [show (2.5 : ℝ) = 1.5 + 1 from by norm_num, Real.rpow_add hd', Real.rpow_one]]
  field_simp
  ring

theorem hicScore_anti {c d1 d2 : ℚ} (hc : 0 < c) (h1 : 0 < d1) (h12 : d1 ≤ d2) :
    hicScore c d2 ≤ hicScore c d1 := by
  have h2 : 0 < d2 := lt_of_lt_of_le h1 h12
  rw [hicScore_eq_rpow hc h1, hicScore_eq_rpow hc h2]
  have hc' : (0 : ℝ) < (c : ℝ) := by exact_mod_cast hc
  have h1' : (0 : ℝ) < (d1 : ℝ) := by exact_mod_cast h1
  have h12' : (d1 : ℝ) ≤ (d2 : ℝ) := by exact_mod_cast h12
  have hbase : (d1 : ℝ) ^ (1.5 : ℝ) ≤ (d2 : ℝ) ^ (1.5 : ℝ) :=
    Real.rpow_le_rpow h1'.le h12' (by norm_num)
  have hpos : (0 : ℝ) < (d1 : ℝ) ^ (1.5 : ℝ) := Real.rpow_pos_of_pos h1' _
  have hinv : ((d2 : ℝ) ^ (1.5 : ℝ))⁻¹ ≤ ((d1 : ℝ) ^ (1.5 : ℝ))⁻¹ :=
    inv_anti₀ hpos hbase
  exact mul_le_mul_of_nonneg_left hinv (Real.rpow_nonneg hc'.le _)

theorem cumtrapzAux_neg (acc x0 y0 : ℚ) (xs ys : List ℚ) :
    cumtrapzAux (-acc) x0 (-y0) xs (ys.map fun z => -z) =
      (cumtrapzAux acc x0 y0 xs ys).map (fun z => -z) := by
  induction xs generalizing acc x0 y0 ys with
  | nil => cases ys <;> simp [cumtrapzAux]
  | cons x1 xs ih =>
    cases ys with
    | nil => simp [cumtrapzAux]
    | cons y1 ys =>
      have h1 : -acc + (-y0 + -y1) / 2 * (x1 - x0) =
          -(acc + (y0 + y1) / 2 * (x1 - x0)) := by ring
      simp only [cumtrapzAux, List.map_cons, h1]
      exact congrArg (List.cons _) (ih _ _ _ _)

theorem cumtrapz_neg (x y : List ℚ) :
    cumtrapz x (y.map fun z => -z) = (cumtrapz x y).map (fun z => -z) := by
  cases x with
  | nil => cases y <;> simp [cumtrapz]
  | cons x0 xs =>
    cases y with
    | nil => simp [cumtrapz]
    | cons y0 ys =>
      have h := cumtrapzAux_neg 0 x0 y0 xs ys
      rw [neg_zero] at h
      simp [cumtrapz, h]

theorem interpAux_neg (x x0 f0 : ℚ) (xs fs : List ℚ) :
    interpAux x x0 (-f0) xs (fs.map fun z => -z) = -interpAux x x0 f0 xs fs := by
  induction xs generalizing x0 f0 fs with
  | nil => cases fs <;> simp [interpAux]
  | cons x1 xs ih =>
    cases fs with
    | nil => simp [interpAux]
    | cons f1 fs =>
      simp only [interpAux, List.map_cons]
      split
      · ring
      · exact ih x1 f1 fs

theorem interp_neg (x : ℚ) (xp fp : List ℚ) :
    interp x xp (fp.map fun z => -z) = -interp x xp fp := by
  cases xp with
  | nil => cases fp <;> simp [interp]
  | cons x0 xs =>
    cases fp with
    | nil => simp [interp]
    | cons f0 fs =>
      simp only [interp, List.map_cons]
      split
      · rfl
      · exact interpAux_neg x x0 f0 xs fs

/-! List utilities used to analyse the numpy array operations. -/

theorem getDMap {α β : Type} (f : α → β) (l : List α) (i : ℕ) (hi : i < l.length)
    (d : α) (d' : β) : (l.map f).getD i d' = f (l.getD i d) := by
  induction l generalizing i with
  | nil => simp at hi
  | cons a t ih =>
    cases i with
    | zero => rfl
    | succ n =>
      simp only [List.map_cons, List.getD_cons_succ]
      exact ih n (by simpa using hi)

theorem getDMem {α : Type} (l : List α) (i : ℕ) (hi : i < l.length) (d : α) :
    l.getD i d ∈ l := by
  induction l generalizing i with
  | nil => simp at hi
  | cons a t ih =>
    cases i with
    | zero => exact List.mem_cons_self a t
    | succ n =>
      simp only [List.getD_cons_succ]
      exact List.mem_cons_of_mem a (ih n (by simpa using hi))

theorem foldlMaxLe (l : List ℝ) (a z : ℝ) :
    l.foldl max a ≤ z ↔ a ≤ z ∧ ∀ b ∈ l, b ≤ z := by
  induction l generalizing a with
  | nil => simp
  | cons b t ih =>
    simp only [List.foldl_cons, ih, max_le_iff, List.mem_cons]
    constructor
    · rintro ⟨⟨ha, hb⟩, ht⟩
      exact ⟨ha, fun c hc => hc.elim (fun e => e ▸ hb) (ht c)⟩
    · rintro ⟨ha, h⟩
      exact ⟨⟨ha, h b (Or.inl rfl)⟩, fun c hc => h c (Or.inr hc)⟩

theorem argmaxIdx_eq_zero {a : ℝ} {rest : List ℝ} (h : ∀ b ∈ rest, b ≤ a) :
    argmaxIdx (a :: rest) = 0 := by
  cases rest with
  | nil => rfl
  | cons b t =>
    simp only [argmaxIdx]
    rw [if_pos]
    show listMax (b :: t) ≤ a
    unfold listMax
    exact (foldlMaxLe t b a).mpr
      ⟨h b (List.mem_cons_self b t), fun c hc => h c (List.mem_cons_of_mem b hc)⟩

theorem argmaxIdx_lt_length {l : List ℝ} (h : l ≠ []) : argmaxIdx l < l.length := by
  induction l with
  | nil => exact absurd rfl h
  | cons a t ih =>
    cases t with
    | nil => simp [argmaxIdx]
    | cons b r =>
      simp only [argmaxIdx]
      split
      · simp
      · have hlt := ih (by simp)
        simp only [List.length_cons] at hlt ⊢
        omega

theorem zipSelfMap {α β : Type} (l : List α) (f : α → β) :
    l.zip (l.map f) = l.map (fun x => (x, f x)) := by
  induction l with
  | nil => rfl
  | cons a t ih => simp [List.zip_cons_cons, ih]

theorem memZip {α β : Type} {p : α × β} :
    ∀ {l1 : List α} {l2 : List β}, p ∈ l1.zip l2 → p.1 ∈ l1 ∧ p.2 ∈ l2 := by
  intro l1
  induction l1 with
  | nil => intro l2 h; simp [List.zip] at h
  | cons a t ih =>
    intro l2 h
    cases l2 with
    | nil => simp [List.zip] at h
    | cons b s =>
      rcases List.mem_cons.mp h with h' | h'
      · subst h'
        exact ⟨List.mem_cons_self a t, List.mem_cons_self b s⟩
      · rcases ih h' with ⟨h1, h2⟩
        exact ⟨List.mem_cons_of_mem a h1, List.mem_cons_of_mem b h2⟩

theorem pairwiseLtHeadLe {a : ℚ} {t : List ℚ}
    (hp : List.Pairwise (fun x y : ℚ => x < y) (a :: t)) : ∀ x ∈ a :: t, a ≤ x := by
  intro x hx
  rcases List.mem_cons.mp hx with h | h
  · exact le_of_eq h.symm
  · exact le_of_lt ((List.pairwise_cons.mp hp).1 x h)

theorem pairwiseLtLeLast {l : List ℚ} (hp : List.Pairwise (fun x y : ℚ => x < y) l) :
    ∀ x ∈ l, x ≤ l.getD (l.length - 1) 0 := by
  induction l with
  | nil => intro x hx; cases hx
  | cons a t ih =>
    rcases List.pairwise_cons.mp hp with ⟨ha, ht⟩
    intro x hx
    cases t with
    | nil =>
      rcases List.mem_cons.mp hx with h | h
      · simp [h]
      · cases h
    | cons b r =>
      have hgoal : ((a :: b :: r).getD ((a :: b :: r).length - 1) 0) =
          ((b :: r).getD ((b :: r).length - 1) 0) := by
        have h1 : (a :: b :: r).length - 1 = ((b :: r).length - 1) + 1 := by
          simp only [List.length_cons]
          omega
        rw [h1, List.getD_cons_succ]
      rw [hgoal]
      rcases List.mem_cons.mp hx with h | h
      · subst h
        exact le_trans (le_of_lt (ha b (List.mem_cons_self b r)))
          (ih ht b (List.mem_cons_self b r))
      · exact ih ht x h

theorem linspace_mem_bounds {a b d : ℚ} (hab : a ≤ b) (hd : d ∈ linspace a b 100) :
    a ≤ d ∧ d ≤ b := by
  simp only [linspace, List.mem_map, List.mem_range] at hd
  obtain ⟨j, hj, rfl⟩ := hd
  have hj99n : j ≤ 99 := by omega
  have hj99 : (j : ℚ) ≤ 99 := by exact_mod_cast hj99n
  have hj0 : (0 : ℚ) ≤ (j : ℚ) := by exact_mod_cast Nat.zero_le j
  have hba : (0 : ℚ) ≤ b - a := sub_nonneg.mpr hab
  have hcast : ((100 : ℕ) : ℚ) - 1 = 99 := by norm_num
  rw [hcast]
  constructor
  · nlinarith
  · nlinarith

theorem linspace_100_shape (a b : ℚ) :
    ∃ rest : List ℚ, linspace a b 100 = a :: rest := by
  have hne : linspace a b 100 ≠ [] := by
    unfold linspace
    simp [List.range_eq_nil]
  have hlen : 0 < (List.range 100).length := by simp
  have hhead : (linspace a b 100).getD 0 0 = a := by
    unfold linspace
    rw [getDMap _ _ 0 hlen 0 0]
    have h0 : (List.range 100).getD 0 0 = 0 := by decide
    rw [h0]
    norm_num
  cases hl : linspace a b 100 with
  | nil => exact absurd hl hne
  | cons x t =>
    rw [hl] at hhead
    simp only [List.getD_cons_zero] at hhead
    exact ⟨t, by rw [hhead]⟩

/-! Characterizations of the per-window candidate. -/

theorem windowCand_none_of_nonpos {t1 : ℚ} {dtL integ : List ℚ}
    (h : ∀ z ∈ integ, ¬ (0 : ℚ) < z) : windowCand t1 dtL integ = none := by
  unfold windowCand
  rw [if_pos]
  have hfil : (dtL.zip integ).filter (fun p => decide ((0 : ℚ) < p.2)) = [] := by
    rw [List.filter_eq_nil_iff]
    intro p hp
    have h2 := (memZip hp).2
    simpa using h _ h2
  simp [hfil]

theorem windowCand_some {t1 : ℚ} {dtL integ : List ℚ} {c : Triple}
    (hd : ∀ d ∈ dtL, 0 < d)
    (h : windowCand t1 dtL integ = some c) :
    0 < c.1 ∧ c.2.1 = t1 ∧ ∃ d ∈ dtL, c.2.2 = t1 + d := by
  unfold windowCand at h
  by_cases he : ((dtL.zip integ).filter (fun p => decide ((0 : ℚ) < p.2))).isEmpty
  · rw [if_pos he] at h
    cases h
  · rw [if_neg he] at h
    injection h with h'
    subst h'
    have hpairs_ne : (dtL.zip integ).filter (fun p => decide ((0 : ℚ) < p.2)) ≠ [] := by
      intro hnil
      rw [hnil] at he
      exact he rfl
    have hhic_ne :
        ((dtL.zip integ).filter (fun p => decide ((0 : ℚ) < p.2))).map
          (fun p => hicScore p.2 p.1) ≠ [] := by
      simpa using hpairs_ne
    have hamax := argmaxIdx_lt_length hhic_ne
    refine ⟨?_, rfl, ?_⟩
    · have hmem := getDMem _ _ hamax (0 : ℝ)
      rcases List.mem_map.mp hmem with ⟨p, hp, hval⟩
      have hp2 : (0 : ℚ) < p.2 := by
        have := (List.mem_filter.mp hp).2
        simpa using this
      have hp1 : p.1 ∈ dtL := (memZip (List.mem_filter.mp hp).1).1
      rw [← hval]
      exact hicScore_pos hp2 (hd p.1 hp1)
    · have hlen : argmaxIdx
          (((dtL.zip integ).filter (fun p => decide ((0 : ℚ) < p.2))).map
            (fun p => hicScore p.2 p.1)) < dtL.length := by
        have h1 : (((dtL.zip integ).filter (fun p => decide ((0 : ℚ) < p.2))).map
            (fun p => hicScore p.2 p.1)).length ≤ (dtL.zip integ).length := by
          rw [List.length_map]
          exact List.length_filter_le _ _
        have h2 : (dtL.zip integ).length ≤ dtL.length := by
          rw [List.length_zip]
          exact min_le_left _ _
        omega
      exact ⟨dtL.getD (argmaxIdx _) 0, getDMem _ _ hlen 0, rfl⟩

theorem windowCand_const {t1 c d0 : ℚ} {rest : List ℚ}
    (hc : 0 < c) (hrest : ∀ d ∈ rest, d0 ≤ d) (hd0 : 0 < d0) :
    windowCand t1 (d0 :: rest) ((d0 :: rest).map fun _ => c) =
      some (hicScore c d0, t1, t1 + d0) := by
  unfold windowCand
  have hzip : (d0 :: rest).zip ((d0 :: rest).map fun _ => c) =
      (d0 :: rest).map (fun d => (d, c)) := zipSelfMap (d0 :: rest) (fun _ => c)
  rw [hzip]
  have hfilter : ((d0 :: rest).map (fun d => (d, c))).filter
      (fun p => decide ((0 : ℚ) < p.2)) = (d0 :: rest).map (fun d => (d, c)) := by
    rw [List.filter_eq_self]
    intro p hp
    rcases List.mem_map.mp hp with ⟨d, hdm, rfl⟩
    simpa using hc
  rw [hfilter]
  rw [if_neg (by simp)]
  have hmapmap : ((d0 :: rest).map (fun d => (d, c))).map (fun p => hicScore p.2 p.1) =
      (d0 :: rest).map (fun d => hicScore c d) := by
    rw [List.map_map]
    rfl
  rw [hmapmap]
  have hamax : argmaxIdx (hicScore c d0 :: rest.map (fun d => hicScore c d)) = 0 := by
    apply argmaxIdx_eq_zero
    intro b hb
    rcases List.mem_map.mp hb with ⟨d, hdm, rfl⟩
    exact hicScore_anti hc hd0 (hrest d hdm)
  simp only [List.map_cons, hamax, List.getD_cons_zero]

/-! Symmetry of the loop body under negation of the acceleration. -/

theorem foldlExt {α β : Type} {f h : β → α → β} {l : List α}
    (hfh : ∀ acc x, x ∈ l → f acc x = h acc x) (m : β) :
    l.foldl f m = l.foldl h m := by
  induction l generalizing m with
  | nil => rfl
  | cons a t ih =>
    rw [List.foldl_cons, List.foldl_cons, hfh m a (List.mem_cons_self a t)]
    exact ih (fun acc x hx => hfh acc x (List.mem_cons_of_mem a hx)) _

theorem zipMapRight {α β γ : Type} (f : β → γ) :
    ∀ (l1 : List α) (l2 : List β),
      l1.zip (l2.map f) = (l1.zip l2).map (fun p => (p.1, f p.2)) := by
  intro l1
  induction l1 with
  | nil => intro l2; rfl
  | cons a t ih =>
    intro l2
    cases l2 with
    | nil => rfl
    | cons b s => simp [List.zip_cons_cons, ih s]

theorem optUpdW_pymax_comm (m : Triple) (o1 o2 : Option Triple) :
    optUpdW pymax (optUpdW pymax m o1) o2 = optUpdW pymax (optUpdW pymax m o2) o1 := by
  cases o1 with
  | none => cases o2 <;> rfl
  | some a =>
    cases o2 with
    | none => rfl
    | some b => exact pymax_right_comm m a b

theorem stepWin_neg (time cumintegral dtL : List ℚ) (m : Triple) (t1 i1 : ℚ) :
    stepWin pymax time (cumintegral.map fun z => -z) dtL m (t1, -i1) =
      stepWin pymax time cumintegral dtL m (t1, i1) := by
  simp only [stepWin]
  have hinteg : dtL.map
      (fun d => interp ((t1, -i1).1 + d) time (cumintegral.map fun z => -z) - (t1, -i1).2) =
      (dtL.map (fun d => interp (t1 + d) time cumintegral - i1)).map (fun z => -z) := by
    rw [List.map_map]
    apply List.map_congr_left
    intro d _
    show interp (t1 + d) time (cumintegral.map fun z => -z) - (-i1) =
      -(interp (t1 + d) time cumintegral - i1)
    rw [interp_neg]
    ring
  rw [hinteg]
  have hnegneg :
      ((dtL.map (fun d => interp (t1 + d) time cumintegral - i1)).map
        (fun z => -z)).map (fun z => -z) =
        dtL.map (fun d => interp (t1 + d) time cumintegral - i1) := by
    have hcomp : ((fun z : ℚ => -z) ∘ (fun z : ℚ => -z)) = id := funext fun z => neg_neg z
    rw [List.map_map, List.map_map, hcomp, Function.id_comp]
  rw [hnegneg]
  exact optUpdW_pymax_comm m _ _

theorem searchW_neg (time g : List ℚ) (tmax tmin : ℚ) :
    searchW pymax time (g.map fun a => -a) tmax tmin =
      searchW pymax time g tmax tmin := by
  unfold searchW
  rw [cumtrapz_neg]
  rw [zipMapRight (fun z : ℚ => -z) time (cumtrapz time g)]
  rw [List.foldl_map]
  apply foldlExt
  intro acc p hp
  have h := stepWin_neg time (cumtrapz time g) (linspace tmin tmax 100) acc p.1 p.2
  exact h

/-! Loop body when the window produces no valid candidate. -/

theorem stepWin_no_signal (upd : Triple → Triple → Triple)
    (time cumintegral dtL : List ℚ) (m : Triple) (ti : ℚ × ℚ)
    (h : ∀ d ∈ dtL, ¬ 0 < interp (ti.1 + d) time cumintegral - ti.2 ∧
        ¬ 0 < -(interp (ti.1 + d) time cumintegral - ti.2)) :
    stepWin upd time cumintegral dtL m ti = m := by
  simp only [stepWin]
  have h1 : windowCand ti.1 dtL
      (dtL.map fun d => interp (ti.1 + d) time cumintegral - ti.2) = none := by
    apply windowCand_none_of_nonpos
    intro z hz
    rcases List.mem_map.mp hz with ⟨d, hd, rfl⟩
    exact (h d hd).1
  have h2 : windowCand ti.1 dtL
      ((dtL.map fun d => interp (ti.1 + d) time cumintegral - ti.2).map
        fun z => -z) = none := by
    apply windowCand_none_of_nonpos
    intro z hz
    rcases List.mem_map.mp hz with ⟨w, hw, rfl⟩
    rcases List.mem_map.mp hw with ⟨d, hd, rfl⟩
    exact (h d hd).2
  rw [h1, h2]
  rfl

/-! Shape and recurrence of the trapezoidal cumulative integral. -/

theorem cumtrapzAux_shift (a : ℚ) :
    ∀ (xs ys : List ℚ) (acc x0 y0 : ℚ),
      cumtrapzAux (a + acc) x0 y0 xs ys =
        (cumtrapzAux acc x0 y0 xs ys).map (fun v => a + v) := by
  intro xs
  induction xs with
  | nil => intro ys acc x0 y0; cases ys <;> simp [cumtrapzAux]
  | cons x1 xs ih =>
    intro ys acc x0 y0
    cases ys with
    | nil => simp [cumtrapzAux]
    | cons y1 ys =>
      simp only [cumtrapzAux, List.map_cons]
      have h1 : a + acc + (y0 + y1) / 2 * (x1 - x0) =
          a + (acc + (y0 + y1) / 2 * (x1 - x0)) := by ring
      rw [h1, ih]

theorem cumtrapzAux_length :
    ∀ (xs ys : List ℚ) (acc x0 y0 : ℚ),
      (cumtrapzAux acc x0 y0 xs ys).length = min xs.length ys.length := by
  intro xs
  induction xs with
  | nil => intro ys acc x0 y0; cases ys <;> simp [cumtrapzAux]
  | cons x1 xs ih =>
    intro ys acc x0 y0
    cases ys with
    | nil => simp [cumtrapzAux]
    | cons y1 ys =>
      simp only [cumtrapzAux, List.length_cons, ih]
      omega

theorem cumtrapz_length (x y : List ℚ) (h : x.length = y.length) :
    (cumtrapz x y).length = x.length := by
  cases x with
  | nil =>
    cases y with
    | nil => rfl
    | cons y0 ys => simp at h
  | cons x0 xs =>
    cases y with
    | nil => simp at h
    | cons y0 ys =>
      simp only [cumtrapz, List.length_cons, cumtrapzAux_length]
      simp only [List.length_cons] at h
      omega

theorem cumtrapz_getD_zero (x y : List ℚ) (hx : x ≠ []) (hy : y ≠ []) :
    (cumtrapz x y).getD 0 0 = 0 := by
  cases x with
  | nil => exact absurd rfl hx
  | cons x0 xs =>
    cases y with
    | nil => exact absurd rfl hy
    | cons y0 ys => rfl

theorem cumtrapz_cons₂ (x0 x1 y0 y1 : ℚ) (xs ys : List ℚ) :
    cumtrapz (x0 :: x1 :: xs) (y0 :: y1 :: ys) =
      0 :: ((cumtrapz (x1 :: xs) (y1 :: ys)).map
        (fun v => (y0 + y1) / 2 * (x1 - x0) + v)) := by
  show 0 :: cumtrapzAux 0 x0 y0 (x1 :: xs) (y1 :: ys) = _
  simp only [cumtrapzAux, cumtrapz, List.map_cons]
  have h1 : (0 : ℚ) + (y0 + y1) / 2 * (x1 - x0) =
      (y0 + y1) / 2 * (x1 - x0) + 0 := by ring
  rw [h1, cumtrapzAux_shift]

theorem cumtrapz_recurrence (x : List ℚ) :
    ∀ (y : List ℚ), x.length = y.length →
      ∀ i, i + 1 < x.length →
        (cumtrapz x y).getD (i + 1) 0 = (cumtrapz x y).getD i 0 +
          (y.getD i 0 + y.getD (i + 1) 0) / 2 *
            (x.getD (i + 1) 0 - x.getD i 0) := by
  induction x with
  | nil => intro y h i hi; simp at hi
  | cons x0 xs ih =>
    intro y h i hi
    cases y with
    | nil => simp at h
    | cons y0 ys =>
      cases xs with
      | nil => simp at hi
      | cons x1 xs' =>
        cases ys with
        | nil => simp at h
        | cons y1 ys' =>
          rw [cumtrapz_cons₂]
          have hlen' : (x1 :: xs').length = (y1 :: ys').length := by
            simp only [List.length_cons] at h ⊢
            omega
          have hlenL : (cumtrapz (x1 :: xs') (y1 :: ys')).length =
              (x1 :: xs').length := cumtrapz_length _ _ hlen'
          cases i with
          | zero =>
            have hL0 : 0 < (cumtrapz (x1 :: xs') (y1 :: ys')).length := by
              rw [hlenL]; simp
            have hmap := getDMap (fun v => (y0 + y1) / 2 * (x1 - x0) + v)
              (cumtrapz (x1 :: xs') (y1 :: ys')) 0 hL0 0 0
            simp only [List.getD_cons_succ, List.getD_cons_zero, hmap,
              cumtrapz_getD_zero (x1 :: xs') (y1 :: ys') (by simp) (by simp)]
            ring
          | succ i' =>
            have hi1 : i' + 1 < (cumtrapz (x1 :: xs') (y1 :: ys')).length := by
              rw [hlenL]
              simp only [List.length_cons] at hi ⊢
              omega
            have hi0 : i' < (cumtrapz (x1 :: xs') (y1 :: ys')).length := by omega
            have hmap1 := getDMap (fun v => (y0 + y1) / 2 * (x1 - x0) + v)
              (cumtrapz (x1 :: xs') (y1 :: ys')) (i' + 1) hi1 0 0
            have hmap0 := getDMap (fun v => (y0 + y1) / 2 * (x1 - x0) + v)
              (cumtrapz (x1 :: xs') (y1 :: ys')) i' hi0 0 0
            have hrec := ih (y1 :: ys') hlen' i' (by rw [← hlenL]; exact hi1)
            simp only [List.getD_cons_succ, hmap1, hmap0, hrec]
            ring

/-! Clamping and interior behaviour of the linear interpolation. -/

theorem interp_clamp {x : ℚ} :
    ∀ {xp fp : List ℚ}, xp ≠ [] → fp.length = xp.length →
      (∀ t ∈ xp, t < x) → interp x xp fp = fp.getD (fp.length - 1) 0 := by
  intro xp
  induction xp with
  | nil => intro fp hne _ _; exact absurd rfl hne
  | cons x0 xs ih =>
    intro fp hne hlen hall
    cases fp with
    | nil => simp at hlen
    | cons f0 fs =>
      have hx0 : x0 < x := hall x0 (List.mem_cons_self x0 xs)
      simp only [interp]
      rw [if_neg (not_le.mpr hx0)]
      cases xs with
      | nil =>
        have hfs : fs = [] := by
          simp only [List.length_cons, List.length_nil] at hlen
          exact List.length_eq_zero.mp (by omega)
        subst hfs
        simp [interpAux]
      | cons x1 xs' =>
        cases fs with
        | nil => simp at hlen
        | cons f1 fs' =>
          have hx1 : x1 < x :=
            hall x1 (List.mem_cons_of_mem x0 (List.mem_cons_self x1 xs'))
          show interpAux x x0 f0 (x1 :: xs') (f1 :: fs') = _
          simp only [interpAux]
          rw [if_neg (not_le.mpr hx1)]
          have hrec : interpAux x x1 f1 xs' fs' = interp x (x1 :: xs') (f1 :: fs') := by
            simp only [interp]
            rw [if_neg (not_le.mpr hx1)]
          rw [hrec]
          rw [ih (by simp) (by simpa using hlen)
            (fun t ht => hall t (List.mem_cons_of_mem x0 ht))]
          have hidx : (f0 :: f1 :: fs').getD ((f0 :: f1 :: fs').length - 1) 0 =
              (f1 :: fs').getD ((f1 :: fs').length - 1) 0 := by
            have h1 : (f0 :: f1 :: fs').length - 1 = ((f1 :: fs').length - 1) + 1 := by
              simp only [List.length_cons]
              omega
            rw [h1, List.getD_cons_succ]
          exact hidx.symm

theorem interp_interior {x : ℚ} :
    ∀ {xp fp : List ℚ} {j : ℕ}, List.Pairwise (fun a b : ℚ => a < b) xp →
      fp.length = xp.length → j + 1 < xp.length →
      xp.getD j 0 ≤ x → x ≤ xp.getD (j + 1) 0 →
      interp x xp fp = fp.getD j 0 +
        (fp.getD (j + 1) 0 - fp.getD j 0) * (x - xp.getD j 0) /
          (xp.getD (j + 1) 0 - xp.getD j 0) := by
  intro xp
  induction xp with
  | nil => intro fp j _ _ hj _ _; simp at hj
  | cons x0 xs ih =>
    intro fp j hp hlen hj hge hle
    cases xs with
    | nil => simp at hj
    | cons x1 xs' =>
      cases fp with
      | nil => simp at hlen
      | cons f0 fs =>
        cases fs with
        | nil => simp at hlen
        | cons f1 fs' =>
          rcases List.pairwise_cons.mp hp with ⟨hx0all, hp'⟩
          have hx01 : x0 < x1 := hx0all x1 (List.mem_cons_self x1 xs')
          cases j with
          | zero =>
            simp only [List.getD_cons_zero, List.getD_cons_succ] at hge hle ⊢
            by_cases hx : x ≤ x0
            · have hxeq : x = x0 := le_antisymm hx hge
              subst hxeq
              simp only [interp, if_pos le_rfl]
              rw [sub_self, mul_zero, zero_div, add_zero]
            · simp only [interp]
              rw [if_neg hx]
              show interpAux x x0 f0 (x1 :: xs') (f1 :: fs') = _
              simp only [interpAux]
              rw [if_pos hle]
          | succ j' =>
            have hx1le : x1 ≤ x := by
              have hb : j' < (x1 :: xs').length := by
                simp only [List.length_cons] at hj ⊢
                omega
              have hmem : (x1 :: xs').getD j' 0 ∈ x1 :: xs' := getDMem _ _ hb 0
              have hhead : x1 ≤ (x1 :: xs').getD j' 0 := pairwiseLtHeadLe hp' _ hmem
              have := hge
              simp only [List.getD_cons_succ] at this
              exact le_trans hhead this
            have hx0lt : x0 < x := lt_of_lt_of_le hx01 hx1le
            by_cases hx1 : x ≤ x1
            · -- x = x1; this forces j' = 0
              have hxeq : x = x1 := le_antisymm hx1 hx1le
              have hj0 : j' = 0 := by
                by_contra hne
                obtain ⟨j'', rfl⟩ : ∃ k, j' = k + 1 := ⟨j' - 1, by omega⟩
                have hb : j'' < xs'.length := by
                  simp only [List.length_cons] at hj
                  omega
                have hmem : xs'.getD j'' 0 ∈ xs' := getDMem _ _ hb 0
                have hlt : x1 < xs'.getD j'' 0 :=
                  (List.pairwise_cons.mp hp').1 _ hmem
                have hle' : xs'.getD j'' 0 ≤ x := by
                  have := hge
                  simp only [List.getD_cons_succ] at this
                  exact this
                rw [← hxeq] at hlt
                exact absurd (lt_of_lt_of_le hlt hle') (lt_irrefl x)
              subst hj0
              -- LHS evaluates through the first interval at its right endpoint
              simp only [interp]
              rw [if_neg (not_le.mpr hx0lt)]
              show interpAux x x0 f0 (x1 :: xs') (f1 :: fs') = _
              simp only [interpAux]
              rw [if_pos hx1]
              simp only [List.getD_cons_succ, List.getD_cons_zero]
              rw [hxeq]
              have hne01 : x1 - x0 ≠ 0 := sub_ne_zero.mpr (ne_of_gt hx01)
              rw [mul_div_assoc, div_self hne01, mul_one, sub_self, mul_zero,
                zero_div, add_zero]
              ring
            · -- x is strictly past x1: drop the first sample
              have hrec : interp x (x0 :: x1 :: xs') (f0 :: f1 :: fs') =
                  interp x (x1 :: xs') (f1 :: fs') := by
                simp only [interp]
                rw [if_neg (not_le.mpr hx0lt), if_neg hx1]
                show interpAux x x0 f0 (x1 :: xs') (f1 :: fs') = _
                simp only [interpAux]
                rw [if_neg hx1]
              rw [hrec]
              have hge' : (x1 :: xs').getD j' 0 ≤ x := by
                have := hge
                simp only [List.getD_cons_succ] at this
                exact this
              have hle' : x ≤ (x1 :: xs').getD (j' + 1) 0 := by
                have := hle
                simp only [List.getD_cons_succ] at this
                exact this
              have hj' : j' + 1 < (x1 :: xs').length := by
                simp only [List.length_cons] at hj ⊢
                omega
              rw [ih hp' (by simpa using hlen) hj' hge' hle']
              simp only [List.getD_cons_succ]

/-! Evaluation of one loop step when the interpolated delta is constant
across the whole duration window (the clamped regime). -/

theorem stepWin_const (upd : Triple → Triple → Triple) (time cumintegral : List ℚ)
    (d0 : ℚ) (rest : List ℚ) (m : Triple) (ti : ℚ × ℚ) (c : ℚ)
    (hdelta : ∀ d ∈ d0 :: rest, interp (ti.1 + d) time cumintegral - ti.2 = c)
    (hd0 : 0 < d0) (hrest : ∀ d ∈ rest, d0 ≤ d) :
    stepWin upd time cumintegral (d0 :: rest) m ti =
      if 0 < c then upd m (hicScore c d0, ti.1, ti.1 + d0)
      else if 0 < -c then upd m (hicScore (-c) d0, ti.1, ti.1 + d0)
      else m := by
  simp only [stepWin]
  have hinteg : (d0 :: rest).map
      (fun d => interp (ti.1 + d) time cumintegral - ti.2) =
      (d0 :: rest).map (fun _ => c) :=
    List.map_congr_left (fun d hd => hdelta d hd)
  rw [hinteg]
  have hneg : ((d0 :: rest).map (fun _ => c)).map (fun z => -z) =
      (d0 :: rest).map (fun _ => -c) := by
    rw [List.map_map]
    rfl
  rw [hneg]
  rcases lt_trichotomy 0 c with hc | hc | hc
  · rw [if_pos hc]
    rw [windowCand_const hc hrest hd0]
    have hn : windowCand ti.1 (d0 :: rest) ((d0 :: rest).map fun _ => -c) = none := by
      apply windowCand_none_of_nonpos
      intro z hz
      rcases List.mem_map.mp hz with ⟨d, _, rfl⟩
      intro hcon
      linarith
    rw [hn]
    rfl
  · subst hc
    rw [if_neg (lt_irrefl 0), if_neg (show ¬ (0 : ℚ) < -0 from by norm_num)]
    have h1 : windowCand ti.1 (d0 :: rest) ((d0 :: rest).map fun _ => (0 : ℚ)) = none := by
      apply windowCand_none_of_nonpos
      intro z hz
      rcases List.mem_map.mp hz with ⟨d, _, rfl⟩
      exact lt_irrefl 0
    have h2 : windowCand ti.1 (d0 :: rest) ((d0 :: rest).map fun _ => -(0 : ℚ)) = none := by
      apply windowCand_none_of_nonpos
      intro z hz
      rcases List.mem_map.mp hz with ⟨d, _, rfl⟩
      norm_num
    rw [h1, h2]
    rfl
  · rw [if_neg (show ¬ (0 : ℚ) < c from by linarith),
      if_pos (show (0 : ℚ) < -c from by linarith)]
    have h1 : windowCand ti.1 (d0 :: rest) ((d0 :: rest).map fun _ => c) = none := by
      apply windowCand_none_of_nonpos
      intro z hz
      rcases List.mem_map.mp hz with ⟨d, _, rfl⟩
      intro hcon
      linarith
    rw [h1]
    rw [windowCand_const (show (0 : ℚ) < -c from by linarith) hrest hd0]
    rfl

/-! Concrete interpolation values for the inputs used in the concrete runs. -/

theorem interp01 {q : ℚ} (hq : 1 < q) : interp q [0, 1] [0, 1 / 2] = 1 / 2 := by
  show (if q ≤ 0 then (0 : ℚ) else interpAux q 0 0 [1] [1 / 2]) = 1 / 2
  rw [if_neg (show ¬ q ≤ 0 from by linarith)]
  show (if q ≤ 1 then (0 : ℚ) + (1 / 2 - 0) * (q - 0) / (1 - 0)
    else interpAux q 1 (1 / 2) [] []) = 1 / 2
  rw [if_neg (show ¬ q ≤ 1 from by linarith)]
  rfl

theorem interp012 {q : ℚ} (hq : 2 < q) : interp q [0, 1, 2] [0, 2, 1] = 1 := by
  show (if q ≤ 0 then (0 : ℚ) else interpAux q 0 0 [1, 2] [2, 1]) = 1
  rw [if_neg (show ¬ q ≤ 0 from by linarith)]
  show (if q ≤ 1 then (0 : ℚ) + (2 - 0) * (q - 0) / (1 - 0)
    else interpAux q 1 2 [2] [1]) = 1
  rw [if_neg (show ¬ q ≤ 1 from by linarith)]
  show (if q ≤ 2 then (2 : ℚ) + (1 - 2) * (q - 1) / (2 - 1)
    else interpAux q 2 1 [] []) = 1
  rw [if_neg (show ¬ q ≤ 2 from by linarith)]
  rfl

/-! Concrete runs of the search used by the counterexamples and witnesses. -/

theorem searchW_eval_ramp :
    searchW pymax [(0 : ℚ), 1] [(0 : ℚ), 1] 5 4 = (hicScore (1 / 2) 4, 0, 4) := by
  obtain ⟨rest, hshape⟩ := linspace_100_shape (4 : ℚ) 5
  have hmem : ∀ d ∈ linspace (4 : ℚ) 5 100, 4 ≤ d :=
    fun d hd => (linspace_mem_bounds (by norm_num) hd).1
  have hrest : ∀ d ∈ rest, (4 : ℚ) ≤ d := by
    intro d hd
    apply hmem
    rw [hshape]
    exact List.mem_cons_of_mem _ hd
  have hcum : cumtrapz [(0 : ℚ), 1] [(0 : ℚ), 1] = [0, 1 / 2] := by
    norm_num [cumtrapz, cumtrapzAux]
  unfold searchW
  rw [hcum, hshape]
  rw [show ([(0 : ℚ), 1]).zip [(0 : ℚ), 1 / 2] =
    [((0 : ℚ), (0 : ℚ)), ((1 : ℚ), (1 : ℚ) / 2)] from rfl]
  rw [List.foldl_cons, List.foldl_cons, List.foldl_nil]
  have hs1 : stepWin pymax [(0 : ℚ), 1] [(0 : ℚ), 1 / 2] (4 :: rest) (0, 0, 0)
      ((0 : ℚ), (0 : ℚ)) = (hicScore (1 / 2) 4, 0, 4) := by
    rw [stepWin_const pymax [(0 : ℚ), 1] [(0 : ℚ), 1 / 2] 4 rest (0, 0, 0)
      ((0 : ℚ), (0 : ℚ)) (1 / 2) ?hdelta (by norm_num) hrest]
    case hdelta =>
      intro d hd
      rw [← hshape] at hd
      have h4 := hmem d hd
      show interp ((0 : ℚ) + d) [0, 1] [0, 1 / 2] - 0 = 1 / 2
      rw [zero_add, interp01 (show (1 : ℚ) < d from by linarith), sub_zero]
    rw [if_pos (show (0 : ℚ) < 1 / 2 from by norm_num)]
    have hpos : (0 : ℝ) < hicScore (1 / 2) 4 := hicScore_pos (by norm_num) (by norm_num)
    have hcond : lexLt ((0 : ℝ), (0 : ℚ), (0 : ℚ))
        (hicScore (1 / 2) 4, ((0 : ℚ), (0 : ℚ)).1, ((0 : ℚ), (0 : ℚ)).1 + 4) :=
      Or.inl hpos
    unfold pymax
    rw [if_pos hcond]
    norm_num
  rw [hs1]
  rw [stepWin_const pymax [(0 : ℚ), 1] [(0 : ℚ), 1 / 2] 4 rest (hicScore (1 / 2) 4, 0, 4)
    ((1 : ℚ), (1 : ℚ) / 2) 0 ?hdelta2 (by norm_num) hrest]
  case hdelta2 =>
    intro d hd
    rw [← hshape] at hd
    have h4 := hmem d hd
    show interp ((1 : ℚ) + d) [0, 1] [0, 1 / 2] - 1 / 2 = 0
    rw [interp01 (show (1 : ℚ) < 1 + d from by linarith), sub_self]
  rw [if_neg (lt_irrefl 0), if_neg (show ¬ (0 : ℚ) < -0 from by norm_num)]

theorem searchW_eval_zero :
    searchW pymax [(0 : ℚ), 1] [(0 : ℚ), 0] 5 4 = (0, 0, 0) := by
  obtain ⟨rest, hshape⟩ := linspace_100_shape (4 : ℚ) 5
  have hmem : ∀ d ∈ linspace (4 : ℚ) 5 100, 4 ≤ d :=
    fun d hd => (linspace_mem_bounds (by norm_num) hd).1
  have hrest : ∀ d ∈ rest, (4 : ℚ) ≤ d := by
    intro d hd
    apply hmem
    rw [hshape]
    exact List.mem_cons_of_mem _ hd
  have hcum : cumtrapz [(0 : ℚ), 1] [(0 : ℚ), 0] = [0, 0] := by
    norm_num [cumtrapz, cumtrapzAux]
  unfold searchW
  rw [hcum, hshape]
  rw [show ([(0 : ℚ), 1]).zip [(0 : ℚ), 0] =
    [((0 : ℚ), (0 : ℚ)), ((1 : ℚ), (0 : ℚ))] from rfl]
  rw [List.foldl_cons, List.foldl_cons, List.foldl_nil]
  have hzero : ∀ q : ℚ, interp q [(0 : ℚ), 1] [(0 : ℚ), 0] = 0 := by
    intro q
    show (if q ≤ 0 then (0 : ℚ) else interpAux q 0 0 [1] [0]) = 0
    split
    · rfl
    · show (if q ≤ 1 then (0 : ℚ) + (0 - 0) * (q - 0) / (1 - 0)
        else interpAux q 1 0 [] []) = 0
      split
      · norm_num
      · rfl
  have hstep : ∀ (m : Triple) (t1 i1 : ℚ), i1 = 0 →
      stepWin pymax [(0 : ℚ), 1] [(0 : ℚ), 0] (4 :: rest) m (t1, i1) = m := by
    intro m t1 i1 hi1
    rw [stepWin_const pymax [(0 : ℚ), 1] [(0 : ℚ), 0] 4 rest m (t1, i1) 0 ?hdelta
      (by norm_num) hrest]
    case hdelta =>
      intro d hd
      show interp ((t1, i1).1 + d) [0, 1] [0, 0] - (t1, i1).2 = 0
      rw [hzero]
      show (0 : ℚ) - i1 = 0
      rw [hi1, sub_zero]
    rw [if_neg (lt_irrefl 0), if_neg (show ¬ (0 : ℚ) < -0 from by norm_num)]
  rw [hstep (0, 0, 0) 0 0 rfl, hstep (0, 0, 0) 1 0 rfl]

theorem searchW_eval_twin (upd : Triple → Triple → Triple) :
    searchW upd [(0 : ℚ), 1, 2] [(2 : ℚ), 2, -4] 5 4 =
      upd (upd (0, 0, 0) (hicScore 1 4, 0, 4)) (hicScore 1 4, 1, 5) := by
  obtain ⟨rest, hshape⟩ := linspace_100_shape (4 : ℚ) 5
  have hmem : ∀ d ∈ linspace (4 : ℚ) 5 100, 4 ≤ d :=
    fun d hd => (linspace_mem_bounds (by norm_num) hd).1
  have hrest : ∀ d ∈ rest, (4 : ℚ) ≤ d := by
    intro d hd
    apply hmem
    rw [hshape]
    exact List.mem_cons_of_mem _ hd
  have hcum : cumtrapz [(0 : ℚ), 1, 2] [(2 : ℚ), 2, -4] = [0, 2, 1] := by
    norm_num [cumtrapz, cumtrapzAux]
  unfold searchW
  rw [hcum, hshape]
  rw [show ([(0 : ℚ), 1, 2]).zip [(0 : ℚ), 2, 1] =
    [((0 : ℚ), (0 : ℚ)), ((1 : ℚ), (2 : ℚ)), ((2 : ℚ), (1 : ℚ))] from rfl]
  rw [List.foldl_cons, List.foldl_cons, List.foldl_cons, List.foldl_nil]
  have hs1 : ∀ m : Triple, stepWin upd [(0 : ℚ), 1, 2] [(0 : ℚ), 2, 1] (4 :: rest) m
      ((0 : ℚ), (0 : ℚ)) = upd m (hicScore 1 4, 0, 4) := by
    intro m
    rw [stepWin_const upd [(0 : ℚ), 1, 2] [(0 : ℚ), 2, 1] 4 rest m
      ((0 : ℚ), (0 : ℚ)) 1 ?hdelta (by norm_num) hrest]
    case hdelta =>
      intro d hd
      rw [← hshape] at hd
      have h4 := hmem d hd
      show interp ((0 : ℚ) + d) [0, 1, 2] [0, 2, 1] - 0 = 1
      rw [zero_add, interp012 (show (2 : ℚ) < d from by linarith), sub_zero]
    rw [if_pos (show (0 : ℚ) < 1 from by norm_num)]
    norm_num
  have hs2 : ∀ m : Triple, stepWin upd [(0 : ℚ), 1, 2] [(0 : ℚ), 2, 1] (4 :: rest) m
      ((1 : ℚ), (2 : ℚ)) = upd m (hicScore 1 4, 1, 5) := by
    intro m
    rw [stepWin_const upd [(0 : ℚ), 1, 2] [(0 : ℚ), 2, 1] 4 rest m
      ((1 : ℚ), (2 : ℚ)) (-1) ?hdelta (by norm_num) hrest]
    case hdelta =>
      intro d hd
      rw [← hshape] at hd
      have h4 := hmem d hd
      show interp ((1 : ℚ) + d) [0, 1, 2] [0, 2, 1] - 2 = -1
      rw [interp012 (show (2 : ℚ) < 1 + d from by linarith)]
      norm_num
    rw [if_neg (show ¬ (0 : ℚ) < -1 from by norm_num),
      if_pos (show (0 : ℚ) < -(-1) from by norm_num)]
    norm_num
  have hs3 : ∀ m : Triple, stepWin upd [(0 : ℚ), 1, 2] [(0 : ℚ), 2, 1] (4 :: rest) m
      ((2 : ℚ), (1 : ℚ)) = m := by
    intro m
    rw [stepWin_const upd [(0 : ℚ), 1, 2] [(0 : ℚ), 2, 1] 4 rest m
      ((2 : ℚ), (1 : ℚ)) 0 ?hdelta (by norm_num) hrest]
    case hdelta =>
      intro d hd
      rw [← hshape] at hd
      have h4 := hmem d hd
      show interp ((2 : ℚ) + d) [0, 1, 2] [0, 2, 1] - 1 = 0
      rw [interp012 (show (2 : ℚ) < 2 + d from by linarith), sub_self]
    rw [if_neg (lt_irrefl 0), if_neg (show ¬ (0 : ℚ) < -0 from by norm_num)]
  rw [hs1, hs2, hs3]

theorem searchW_eval_twin_pymax :
    searchW pymax [(0 : ℚ), 1, 2] [(2 : ℚ), 2, -4] 5 4 = (hicScore 1 4, 1, 5) := by
  rw [searchW_eval_twin pymax]
  have hpos : (0 : ℝ) < hicScore 1 4 := hicScore_pos (by norm_num) (by norm_num)
  have hc1 : lexLt ((0 : ℝ), (0 : ℚ), (0 : ℚ)) (hicScore 1 4, 0, 4) := Or.inl hpos
  have h1 : pymax ((0 : ℝ), (0 : ℚ), (0 : ℚ)) (hicScore 1 4, 0, 4) =
      (hicScore 1 4, 0, 4) := by
    unfold pymax
    rw [if_pos hc1]
  rw [h1]
  have h2 : lexLt (hicScore 1 4, (0 : ℚ), (4 : ℚ)) (hicScore 1 4, 1, 5) :=
    Or.inr ⟨rfl, Or.inl (by norm_num)⟩
  unfold pymax
  rw [if_pos h2]

theorem searchW_eval_twin_scoreTie :
    searchW scoreOnlyMax [(0 : ℚ), 1, 2] [(2 : ℚ), 2, -4] 5 4 = (hicScore 1 4, 0, 4) := by
  rw [searchW_eval_twin scoreOnlyMax]
  have hpos : (0 : ℝ) < hicScore 1 4 := hicScore_pos (by norm_num) (by norm_num)
  have h1 : scoreOnlyMax ((0 : ℝ), (0 : ℚ), (0 : ℚ)) (hicScore 1 4, 0, 4) =
      (hicScore 1 4, 0, 4) := by
    unfold scoreOnlyMax
    rw [if_pos hpos]
  rw [h1]
  unfold scoreOnlyMax
  rw [if_neg (lt_irrefl (hicScore 1 4))]

/-! Helpers to destruct a successful call. -/

theorem interp_single (q t0 f0 : ℚ) : interp q [t0] [f0] = f0 := by
  show (if q ≤ t0 then f0 else interpAux q t0 f0 [] []) = f0
  split
  · rfl
  · rfl

theorem interpZero (q : ℚ) : interp q [(0 : ℚ), 1] [(0 : ℚ), 0] = 0 := by
  show (if q ≤ 0 then (0 : ℚ) else interpAux q 0 0 [1] [0]) = 0
  split
  · rfl
  · show (if q ≤ 1 then (0 : ℚ) + (0 - 0) * (q - 0) / (1 - 0)
      else interpAux q 1 0 [] []) = 0
    split
    · norm_num
    · rfl

theorem calculate_HIC_ok_elim {time g : List ℚ} {tmax tmin : ℚ} {r : Triple}
    (hok : calculate_HIC time g tmax tmin = .ok r) :
    0 < tmin ∧ tmin < tmax ∧ searchW pymax time g tmax tmin = r := by
  unfold calculate_HIC at hok
  by_cases h0 : 0 < tmin
  · rw [if_pos h0] at hok
    by_cases h1 : tmin < tmax
    · rw [if_pos h1] at hok
      injection hok with h
      exact ⟨h0, h1, h⟩
    · rw [if_neg h1] at hok
      simp at hok
  · rw [if_neg h0] at hok
    simp at hok

theorem result_shape {time g : List ℚ} {tmax tmin : ℚ} {c : Triple}
    (h0 : 0 < tmin) (h1 : tmin < tmax)
    (hc : c ∈ candList time g tmax tmin) :
    0 < c.1 ∧ c.2.1 ∈ time ∧ ∃ d ∈ linspace tmin tmax 100, c.2.2 = c.2.1 + d := by
  have hd : ∀ d ∈ linspace tmin tmax 100, 0 < d :=
    fun d hdm => lt_of_lt_of_le h0 (linspace_mem_bounds (le_of_lt h1) hdm).1
  unfold candList at hc
  rcases List.mem_flatMap.mp hc with ⟨ti, hti, hcand⟩
  have ht1 : ti.1 ∈ time := (memZip hti).1
  simp only [candsAt] at hcand
  rcases List.mem_append.mp hcand with h | h
  · cases hw : windowCand ti.1 (linspace tmin tmax 100)
        ((linspace tmin tmax 100).map
          (fun d => interp (ti.1 + d) time (cumtrapz time g) - ti.2)) with
    | none => rw [hw] at h; cases h
    | some a =>
      rw [hw] at h
      simp only [Option.toList_some, List.mem_singleton] at h
      subst h
      rcases windowCand_some hd hw with ⟨hp, he, hd'⟩
      refine ⟨hp, ?_, ?_⟩
      · rw [he]; exact ht1
      · rw [← he] at hd'; exact hd'
  · cases hw : windowCand ti.1 (linspace tmin tmax 100)
        (((linspace tmin tmax 100).map
          (fun d => interp (ti.1 + d) time (cumtrapz time g) - ti.2)).map
          (fun z => -z)) with
    | none => rw [hw] at h; cases h
    | some a =>
      rw [hw] at h
      simp only [Option.toList_some, List.mem_singleton] at h
      subst h
      rcases windowCand_some hd hw with ⟨hp, he, hd'⟩
      refine ⟨hp, ?_, ?_⟩
      · rw [he]; exact ht1
      · rw [← he] at hd'; exact hd'

theorem result_pos_mem {time g : List ℚ} {tmax tmin : ℚ} {r : Triple}
    (hok : calculate_HIC time g tmax tmin = .ok r) (hpos : 0 < r.1) :
    r ∈ candList time g tmax tmin := by
  obtain ⟨h0, h1, hsr⟩ := calculate_HIC_ok_elim hok
  rcases searchW_sentinel_or_mem time g tmax tmin with h | h
  · have hr : r = ((0 : ℝ), (0 : ℚ), (0 : ℚ)) := hsr.symm.trans h
    rw [hr] at hpos
    simp at hpos
  · rw [hsr] at h
    exact h

/-! Shared concrete runs wrapped through the entry point. -/

theorem calculate_HIC_ramp :
    calculate_HIC [(0 : ℚ), 1] [(0 : ℚ), 1] 5 4 = .ok (hicScore (1 / 2) 4, 0, 4) := by
  unfold calculate_HIC
  rw [if_pos (show (0 : ℚ) < 4 from by norm_num),
    if_pos (show (4 : ℚ) < 5 from by norm_num)]
  exact congrArg Except.ok searchW_eval_ramp

theorem calculate_HIC_zeroInput :
    calculate_HIC [(0 : ℚ), 1] [(0 : ℚ), 0] 5 4 = .ok (0, 0, 0) := by
  unfold calculate_HIC
  rw [if_pos (show (0 : ℚ) < 4 from by norm_num),
    if_pos (show (4 : ℚ) < 5 from by norm_num)]
  exact congrArg Except.ok searchW_eval_zero

/-! The claims. -/

/-- Claim C1: sign symmetry.  For every strictly increasing time series, every
acceleration series of the same length, and parameters 0 < tmin < tmax,
calculate_HIC returns the same (HIC, t1, t2) triple on g and on -g. -/
theorem claim_C1_sign_symmetry (time g : List ℚ) (tmax tmin : ℚ)
    (hs : strictIncr time) (hlen : time.length = g.length)
    (h0 : 0 < tmin) (h1 : tmin < tmax) :
    calculate_HIC time g tmax tmin =
      calculate_HIC time (g.map fun a => -a) tmax tmin := by
  simp only [calculate_HIC, if_pos h0, if_pos h1]
  rw [searchW_neg]

/-- Witness for claim C1 at the concrete input time = [0, 1], g = [1, 2],
tmax = 5, tmin = 4. -/
theorem claim_C1_sign_symmetry_witness :
    strictIncr [(0 : ℚ), 1] ∧ ([(0 : ℚ), 1]).length = ([(1 : ℚ), 2]).length ∧
      (0 : ℚ) < 4 ∧ (4 : ℚ) < 5 ∧
      calculate_HIC [(0 : ℚ), 1] [(1 : ℚ), 2] 5 4 =
        calculate_HIC [(0 : ℚ), 1] ([(1 : ℚ), 2].map fun a => -a) 5 4 := by
  have hs : strictIncr [(0 : ℚ), 1] := by
    norm_num [strictIncr, List.pairwise_cons]
  exact ⟨hs, rfl, by norm_num, by norm_num,
    claim_C1_sign_symmetry [(0 : ℚ), 1] [(1 : ℚ), 2] 5 4 hs rfl
      (by norm_num) (by norm_num)⟩

/-- Claim C3: malformed-parameter rejection.  Whenever tmin ≤ 0 or
tmax ≤ tmin, calculate_HIC fails with the validation error (its parameter
assertions fire) and never returns a result triple. -/
theorem claim_C3_param_rejection (time g : List ℚ) (tmax tmin : ℚ)
    (h : tmin ≤ 0 ∨ tmax ≤ tmin) :
    calculate_HIC time g tmax tmin = .error .invalidWindow := by
  unfold calculate_HIC
  rcases h with h | h
  · rw [if_neg (not_lt.mpr h)]
  · by_cases h0 : 0 < tmin
    · rw [if_pos h0, if_neg (not_lt.mpr h)]
    · rw [if_neg h0]

/-- Witness for claim C3 at tmin = 0, tmax = 1. -/
theorem claim_C3_param_rejection_witness :
    ((0 : ℚ) ≤ 0 ∨ (1 : ℚ) ≤ 0) ∧
      calculate_HIC [(0 : ℚ), 1] [(0 : ℚ), 0] 1 0 = .error .invalidWindow :=
  ⟨Or.inl le_rfl,
    claim_C3_param_rejection [(0 : ℚ), 1] [(0 : ℚ), 0] 1 0 (Or.inl le_rfl)⟩

/-- Counterexample to claim C4: for a single-sample series and valid
parameters, calculate_HIC returns the sentinel (0, 0, 0) rather than failing
with a validation error, so the claimed rejection does not happen. -/
theorem claim_C4_counterexample :
    calculate_HIC [(0 : ℚ)] [(3 : ℚ)] (36 / 1000) (3 / 1000) = .ok (0, 0, 0) := by
  unfold calculate_HIC
  rw [if_pos (show (0 : ℚ) < 3 / 1000 from by norm_num),
    if_pos (show (3 : ℚ) / 1000 < 36 / 1000 from by norm_num)]
  refine congrArg Except.ok ?_
  unfold searchW
  have hcum : cumtrapz [(0 : ℚ)] [(3 : ℚ)] = [0] := rfl
  rw [hcum]
  rw [show ([(0 : ℚ)]).zip [(0 : ℚ)] = [((0 : ℚ), (0 : ℚ))] from rfl]
  rw [List.foldl_cons, List.foldl_nil]
  obtain ⟨rest, hshape⟩ := linspace_100_shape ((3 : ℚ) / 1000) (36 / 1000)
  rw [hshape]
  rw [stepWin_const pymax [(0 : ℚ)] [(0 : ℚ)] (3 / 1000) rest (0, 0, 0)
    ((0 : ℚ), (0 : ℚ)) 0 ?hdelta (by norm_num) ?hrest]
  case hdelta =>
    intro d hd
    show interp ((0 : ℚ) + d) [0] [0] - 0 = 0
    rw [interp_single]
    norm_num
  case hrest =>
    intro d hd
    have hdm : d ∈ linspace ((3 : ℚ) / 1000) (36 / 1000) 100 := by
      rw [hshape]
      exact List.mem_cons_of_mem _ hd
    exact (linspace_mem_bounds (by norm_num) hdm).1
  rw [if_neg (lt_irrefl 0), if_neg (show ¬ (0 : ℚ) < -0 from by norm_num)]

/-- Claim C4 amended: for every input with fewer than 2 samples and valid
parameters 0 < tmin < tmax, calculate_HIC returns the sentinel (0, 0, 0)
instead of raising a validation error. -/
theorem claim_C4_amended (time g : List ℚ) (tmax tmin : ℚ)
    (hlen : time.length = g.length) (hshort : time.length < 2)
    (h0 : 0 < tmin) (h1 : tmin < tmax) :
    calculate_HIC time g tmax tmin = .ok (0, 0, 0) := by
  unfold calculate_HIC
  rw [if_pos h0, if_pos h1]
  refine congrArg Except.ok ?_
  cases time with
  | nil =>
    unfold searchW
    rfl
  | cons t0 ts =>
    cases ts with
    | cons t1 ts' =>
      exfalso
      simp only [List.length_cons] at hshort
      omega
    | nil =>
      cases g with
      | nil =>
        exfalso
        simp only [List.length_cons, List.length_nil] at hlen
        omega
      | cons g0 gs =>
        cases gs with
        | cons g1 gs' =>
          exfalso
          simp only [List.length_cons, List.length_nil] at hlen
          omega
        | nil =>
          unfold searchW
          have hcum : cumtrapz [t0] [g0] = [0] := rfl
          rw [hcum]
          rw [show ([t0]).zip [(0 : ℚ)] = [(t0, (0 : ℚ))] from rfl]
          rw [List.foldl_cons, List.foldl_nil]
          obtain ⟨rest, hshape⟩ := linspace_100_shape tmin tmax
          rw [hshape]
          rw [stepWin_const pymax [t0] [(0 : ℚ)] tmin rest (0, 0, 0)
            (t0, (0 : ℚ)) 0 ?hdelta h0 ?hrest]
          case hdelta =>
            intro d hd
            show interp (t0 + d) [t0] [0] - 0 = 0
            rw [interp_single]
            norm_num
          case hrest =>
            intro d hd
            have hdm : d ∈ linspace tmin tmax 100 := by
              rw [hshape]
              exact List.mem_cons_of_mem _ hd
            exact (linspace_mem_bounds (le_of_lt h1) hdm).1
          rw [if_neg (lt_irrefl 0), if_neg (show ¬ (0 : ℚ) < -0 from by norm_num)]

/-- Witness for the amended claim C4 at time = [0], g = [3]. -/
theorem claim_C4_amended_witness :
    ([(0 : ℚ)]).length = ([(3 : ℚ)]).length ∧ ([(0 : ℚ)]).length < 2 ∧
      (0 : ℚ) < 3 / 1000 ∧ (3 : ℚ) / 1000 < 36 / 1000 ∧
      calculate_HIC [(0 : ℚ)] [(3 : ℚ)] (36 / 1000) (3 / 1000) = .ok (0, 0, 0) :=
  ⟨rfl, by norm_num, by norm_num, by norm_num,
    claim_C4_amended [(0 : ℚ)] [(3 : ℚ)] (36 / 1000) (3 / 1000) rfl
      (by norm_num) (by norm_num) (by norm_num)⟩

/-- Claim C5: no-signal sentinel.  For valid parameters, when no window start
and duration yields a strictly positive integral delta in either polarity
direction, calculate_HIC returns (0, 0, 0) without raising an error. -/
theorem claim_C5_no_signal (time g : List ℚ) (tmax tmin : ℚ)
    (h0 : 0 < tmin) (h1 : tmin < tmax)
    (hnone : ∀ p ∈ time.zip (cumtrapz time g), ∀ d ∈ linspace tmin tmax 100,
      ¬ 0 < interp (p.1 + d) time (cumtrapz time g) - p.2 ∧
      ¬ 0 < -(interp (p.1 + d) time (cumtrapz time g) - p.2)) :
    calculate_HIC time g tmax tmin = .ok (0, 0, 0) := by
  unfold calculate_HIC
  rw [if_pos h0, if_pos h1]
  refine congrArg Except.ok ?_
  unfold searchW
  have hfold : ∀ (l : List (ℚ × ℚ)) (m : Triple),
      (∀ p ∈ l, ∀ d ∈ linspace tmin tmax 100,
        ¬ 0 < interp (p.1 + d) time (cumtrapz time g) - p.2 ∧
        ¬ 0 < -(interp (p.1 + d) time (cumtrapz time g) - p.2)) →
      l.foldl (stepWin pymax time (cumtrapz time g) (linspace tmin tmax 100)) m = m := by
    intro l
    induction l with
    | nil => intro m _; rfl
    | cons p t ih =>
      intro m hl
      rw [List.foldl_cons]
      rw [stepWin_no_signal pymax time (cumtrapz time g) (linspace tmin tmax 100) m p
        (hl p (List.mem_cons_self p t))]
      exact ih m (fun q hq => hl q (List.mem_cons_of_mem p hq))
  exact hfold _ _ hnone

/-- Witness for claim C5 at the all-zero series time = [0, 1], g = [0, 0]. -/
theorem claim_C5_no_signal_witness :
    (0 : ℚ) < 4 ∧ (4 : ℚ) < 5 ∧
      (∀ p ∈ ([(0 : ℚ), 1]).zip (cumtrapz [(0 : ℚ), 1] [(0 : ℚ), 0]),
        ∀ d ∈ linspace (4 : ℚ) 5 100,
        ¬ 0 < interp (p.1 + d) [(0 : ℚ), 1] (cumtrapz [(0 : ℚ), 1] [(0 : ℚ), 0]) - p.2 ∧
        ¬ 0 < -(interp (p.1 + d) [(0 : ℚ), 1] (cumtrapz [(0 : ℚ), 1] [(0 : ℚ), 0]) - p.2)) ∧
      calculate_HIC [(0 : ℚ), 1] [(0 : ℚ), 0] 5 4 = .ok (0, 0, 0) := by
  have hcum : cumtrapz [(0 : ℚ), 1] [(0 : ℚ), 0] = [0, 0] := by
    norm_num [cumtrapz, cumtrapzAux]
  have hnone : ∀ p ∈ ([(0 : ℚ), 1]).zip (cumtrapz [(0 : ℚ), 1] [(0 : ℚ), 0]),
      ∀ d ∈ linspace (4 : ℚ) 5 100,
      ¬ 0 < interp (p.1 + d) [(0 : ℚ), 1] (cumtrapz [(0 : ℚ), 1] [(0 : ℚ), 0]) - p.2 ∧
      ¬ 0 < -(interp (p.1 + d) [(0 : ℚ), 1] (cumtrapz [(0 : ℚ), 1] [(0 : ℚ), 0]) - p.2) := by
    intro p hp d hd
    rw [hcum] at hp
    rw [hcum]
    rcases List.mem_cons.mp hp with rfl | hp'
    · norm_num [interpZero]
    · rcases List.mem_cons.mp hp' with rfl | hp''
      · norm_num [interpZero]
      · cases hp''
  exact ⟨by norm_num, by norm_num, hnone,
    claim_C5_no_signal [(0 : ℚ), 1] [(0 : ℚ), 0] 5 4 (by norm_num) (by norm_num) hnone⟩

/-- Claim C7: the cumulative integral series has the same length as the input,
starts at 0, and satisfies the trapezoidal recurrence at every interior index. -/
theorem claim_C7_cumtrapz_spec (time g : List ℚ) (hlen : time.length = g.length) :
    (cumtrapz time g).length = time.length ∧
      (0 < time.length → (cumtrapz time g).getD 0 0 = 0) ∧
      (∀ i, i + 1 < time.length →
        (cumtrapz time g).getD (i + 1) 0 = (cumtrapz time g).getD i 0 +
          (g.getD i 0 + g.getD (i + 1) 0) / 2 *
            (time.getD (i + 1) 0 - time.getD i 0)) := by
  refine ⟨cumtrapz_length time g hlen, ?_, cumtrapz_recurrence time g hlen⟩
  intro hpos
  have hx : time ≠ [] := List.length_pos.mp hpos
  have hy : g ≠ [] := List.length_pos.mp (hlen ▸ hpos)
  exact cumtrapz_getD_zero time g hx hy

/-- Witness for claim C7 at time = [0, 1], g = [2, 4]. -/
theorem claim_C7_cumtrapz_spec_witness :
    ([(0 : ℚ), 1]).length = ([(2 : ℚ), 4]).length ∧
      ((cumtrapz [(0 : ℚ), 1] [(2 : ℚ), 4]).length = ([(0 : ℚ), 1]).length ∧
        (0 < ([(0 : ℚ), 1]).length → (cumtrapz [(0 : ℚ), 1] [(2 : ℚ), 4]).getD 0 0 = 0) ∧
        (∀ i, i + 1 < ([(0 : ℚ), 1]).length →
          (cumtrapz [(0 : ℚ), 1] [(2 : ℚ), 4]).getD (i + 1) 0 =
            (cumtrapz [(0 : ℚ), 1] [(2 : ℚ), 4]).getD i 0 +
            (([(2 : ℚ), 4]).getD i 0 + ([(2 : ℚ), 4]).getD (i + 1) 0) / 2 *
              (([(0 : ℚ), 1]).getD (i + 1) 0 - ([(0 : ℚ), 1]).getD i 0))) :=
  ⟨rfl, claim_C7_cumtrapz_spec [(0 : ℚ), 1] [(2 : ℚ), 4] rfl⟩

/-- Claim C8: interpolation of the cumulative integral clamps to the final
integral value past the last sample time, and is the linear interpolation of
the surrounding (time, integral) pairs inside the sampled range. -/
theorem claim_C8_interp_spec (time g : List ℚ) (hs : strictIncr time)
    (hlen : g.length = time.length) (hne : time ≠ []) :
    (∀ x : ℚ, time.getD (time.length - 1) 0 < x →
      interp x time (cumtrapz time g) =
        (cumtrapz time g).getD ((cumtrapz time g).length - 1) 0) ∧
    (∀ x : ℚ, ∀ j, j + 1 < time.length →
      time.getD j 0 ≤ x → x ≤ time.getD (j + 1) 0 →
      interp x time (cumtrapz time g) = (cumtrapz time g).getD j 0 +
        ((cumtrapz time g).getD (j + 1) 0 - (cumtrapz time g).getD j 0) *
          (x - time.getD j 0) / (time.getD (j + 1) 0 - time.getD j 0)) := by
  have hclen : (cumtrapz time g).length = time.length :=
    cumtrapz_length time g hlen.symm
  constructor
  · intro x hx
    apply interp_clamp hne (by rw [hclen])
    intro t ht
    exact lt_of_le_of_lt (pairwiseLtLeLast hs t ht) hx
  · intro x j hj hj1 hj2
    exact interp_interior hs (by rw [hclen]) hj hj1 hj2

/-- Witness for claim C8 at time = [0, 2], g = [1, 1]. -/
theorem claim_C8_interp_spec_witness :
    strictIncr [(0 : ℚ), 2] ∧ ([(1 : ℚ), 1]).length = ([(0 : ℚ), 2]).length ∧
      ([(0 : ℚ), 2] : List ℚ) ≠ [] ∧
      ((∀ x : ℚ, ([(0 : ℚ), 2]).getD (([(0 : ℚ), 2]).length - 1) 0 < x →
        interp x [(0 : ℚ), 2] (cumtrapz [(0 : ℚ), 2] [(1 : ℚ), 1]) =
          (cumtrapz [(0 : ℚ), 2] [(1 : ℚ), 1]).getD
            ((cumtrapz [(0 : ℚ), 2] [(1 : ℚ), 1]).length - 1) 0) ∧
      (∀ x : ℚ, ∀ j, j + 1 < ([(0 : ℚ), 2]).length →
        ([(0 : ℚ), 2]).getD j 0 ≤ x → x ≤ ([(0 : ℚ), 2]).getD (j + 1) 0 →
        interp x [(0 : ℚ), 2] (cumtrapz [(0 : ℚ), 2] [(1 : ℚ), 1]) =
          (cumtrapz [(0 : ℚ), 2] [(1 : ℚ), 1]).getD j 0 +
          ((cumtrapz [(0 : ℚ), 2] [(1 : ℚ), 1]).getD (j + 1) 0 -
            (cumtrapz [(0 : ℚ), 2] [(1 : ℚ), 1]).getD j 0) *
            (x - ([(0 : ℚ), 2]).getD j 0) /
            (([(0 : ℚ), 2]).getD (j + 1) 0 - ([(0 : ℚ), 2]).getD j 0))) := by
  have hs : strictIncr [(0 : ℚ), 2] := by
    norm_num [strictIncr, List.pairwise_cons]
  exact ⟨hs, rfl, List.cons_ne_nil _ _,
    claim_C8_interp_spec [(0 : ℚ), 2] [(1 : ℚ), 1] hs rfl (List.cons_ne_nil _ _)⟩

/-- Counterexample to claim C2: a valid all-zero input makes calculate_HIC
return the sentinel (0, 0, 0), and its window length 0 - 0 lies below
tmin = 4, so the claimed window bound fails for that returned triple. -/
theorem claim_C2_counterexample :
    calculate_HIC [(0 : ℚ), 1] [(0 : ℚ), 0] 5 4 = .ok (0, 0, 0) ∧
      ¬ ((4 : ℚ) ≤ (0 : ℚ) - 0) :=
  ⟨calculate_HIC_zeroInput, by norm_num⟩

/-- Claim C2 amended: every returned triple whose HIC score is strictly
positive satisfies t1 ≤ t2 and t2 - t1 ∈ [tmin, tmax] exactly; the only other
possible result is the sentinel (0, 0, 0). -/
theorem claim_C2_amended (time g : List ℚ) (tmax tmin : ℚ) (r : Triple)
    (hok : calculate_HIC time g tmax tmin = .ok r) (hpos : 0 < r.1) :
    r.2.1 ≤ r.2.2 ∧ tmin ≤ r.2.2 - r.2.1 ∧ r.2.2 - r.2.1 ≤ tmax := by
  obtain ⟨h0, h1, -⟩ := calculate_HIC_ok_elim hok
  have hmem := result_pos_mem hok hpos
  obtain ⟨-, -, d, hd, ht2⟩ := result_shape h0 h1 hmem
  obtain ⟨hd1, hd2⟩ := linspace_mem_bounds (le_of_lt h1) hd
  have hdpos : 0 < d := lt_of_lt_of_le h0 hd1
  rw [ht2]
  refine ⟨by linarith, by linarith, by linarith⟩

/-- Witness for the amended claim C2 at the ramp input time = [0, 1],
g = [0, 1], tmax = 5, tmin = 4, whose result has positive score. -/
theorem claim_C2_amended_witness :
    calculate_HIC [(0 : ℚ), 1] [(0 : ℚ), 1] 5 4 = .ok (hicScore (1 / 2) 4, 0, 4) ∧
      (0 : ℝ) < hicScore (1 / 2) 4 ∧
      ((0 : ℚ) ≤ 4 ∧ (4 : ℚ) ≤ 4 - 0 ∧ (4 : ℚ) - 0 ≤ 5) := by
  have hpos : (0 : ℝ) < hicScore (1 / 2) 4 := hicScore_pos (by norm_num) (by norm_num)
  exact ⟨calculate_HIC_ramp, hpos,
    claim_C2_amended [(0 : ℚ), 1] [(0 : ℚ), 1] 5 4 (hicScore (1 / 2) 4, 0, 4)
      calculate_HIC_ramp hpos⟩

/-- Counterexample to claim C6: on time = [0, 1, 2], g = [2, 2, -4] with
tmax = 5, tmin = 4 the code's full-tuple running maximum returns t1 = 1
(the score tie is broken by the larger t1), while the score-only
first-encountered-wins update the claim describes returns t1 = 0, so the two
updates are observably different. -/
theorem claim_C6_counterexample :
    calculate_HIC [(0 : ℚ), 1, 2] [(2 : ℚ), 2, -4] 5 4 = .ok (hicScore 1 4, 1, 5) ∧
      calculate_HIC_scoreTie [(0 : ℚ), 1, 2] [(2 : ℚ), 2, -4] 5 4 =
        .ok (hicScore 1 4, 0, 4) ∧
      calculate_HIC [(0 : ℚ), 1, 2] [(2 : ℚ), 2, -4] 5 4 ≠
        calculate_HIC_scoreTie [(0 : ℚ), 1, 2] [(2 : ℚ), 2, -4] 5 4 := by
  have h1 : calculate_HIC [(0 : ℚ), 1, 2] [(2 : ℚ), 2, -4] 5 4 =
      .ok (hicScore 1 4, 1, 5) := by
    unfold calculate_HIC
    rw [if_pos (show (0 : ℚ) < 4 from by norm_num),
      if_pos (show (4 : ℚ) < 5 from by norm_num)]
    exact congrArg Except.ok searchW_eval_twin_pymax
  have h2 : calculate_HIC_scoreTie [(0 : ℚ), 1, 2] [(2 : ℚ), 2, -4] 5 4 =
      .ok (hicScore 1 4, 0, 4) := by
    unfold calculate_HIC_scoreTie
    rw [if_pos (show (0 : ℚ) < 4 from by norm_num),
      if_pos (show (4 : ℚ) < 5 from by norm_num)]
    exact congrArg Except.ok searchW_eval_twin_scoreTie
  refine ⟨h1, h2, ?_⟩
  rw [h1, h2]
  intro h
  injection h with h'
  have hcomp := congrArg (fun t : Triple => t.2.1) h'
  norm_num at hcomp

/-- Claim C6 amended: the running maximum compares full (score, t1, t2)
tuples lexicographically, so the returned triple is either the sentinel
(0, 0, 0) or a candidate, and it is a lexicographic upper bound of every
candidate; in particular score ties are broken toward the larger (t1, t2),
independent of scan order. -/
theorem claim_C6_amended (time g : List ℚ) (tmax tmin : ℚ) (r : Triple)
    (hok : calculate_HIC time g tmax tmin = .ok r) :
    (r = (0, 0, 0) ∨ r ∈ candList time g tmax tmin) ∧
      ∀ c ∈ candList time g tmax tmin, lexLe c r := by
  obtain ⟨h0, h1, hsr⟩ := calculate_HIC_ok_elim hok
  subst hsr
  exact ⟨searchW_sentinel_or_mem time g tmax tmin, searchW_upper_bound time g tmax tmin⟩

/-- Witness for the amended claim C6 at the all-zero input. -/
theorem claim_C6_amended_witness :
    calculate_HIC [(0 : ℚ), 1] [(0 : ℚ), 0] 5 4 = .ok (0, 0, 0) ∧
      ((((0 : ℝ), (0 : ℚ), (0 : ℚ)) = ((0 : ℝ), (0 : ℚ), (0 : ℚ)) ∨
        ((0 : ℝ), (0 : ℚ), (0 : ℚ)) ∈ candList [(0 : ℚ), 1] [(0 : ℚ), 0] 5 4) ∧
      ∀ c ∈ candList [(0 : ℚ), 1] [(0 : ℚ), 0] 5 4,
        lexLe c ((0 : ℝ), (0 : ℚ), (0 : ℚ))) :=
  ⟨calculate_HIC_zeroInput,
    claim_C6_amended [(0 : ℚ), 1] [(0 : ℚ), 0] 5 4 (0, 0, 0) calculate_HIC_zeroInput⟩

/-- Counterexample to claim C9: on time = [0, 1], g = [0, 1] with tmax = 5,
tmin = 4 the returned window end t2 = 4 exceeds the last sample time 1, so
the returned times do not stay within the sample series time range. -/
theorem claim_C9_counterexample :
    calculate_HIC [(0 : ℚ), 1] [(0 : ℚ), 1] 5 4 = .ok (hicScore (1 / 2) 4, 0, 4) ∧
      ¬ ((4 : ℚ) ≤ 1) :=
  ⟨calculate_HIC_ramp, by norm_num⟩

/-- Claim C9 amended: for a strictly increasing series, every returned triple
with strictly positive score has t1 within the sample time range, while t2 is
only bounded by the last sample time plus tmax (the end time may overhang the
series because interpolation clamps instead of restricting t2). -/
theorem claim_C9_amended (time g : List ℚ) (tmax tmin : ℚ) (r : Triple)
    (hs : strictIncr time)
    (hok : calculate_HIC time g tmax tmin = .ok r) (hpos : 0 < r.1) :
    time.getD 0 0 ≤ r.2.1 ∧ r.2.1 ≤ time.getD (time.length - 1) 0 ∧
      r.2.2 ≤ time.getD (time.length - 1) 0 + tmax := by
  obtain ⟨h0, h1, -⟩ := calculate_HIC_ok_elim hok
  obtain ⟨-, ht1, d, hd, ht2⟩ := result_shape h0 h1 (result_pos_mem hok hpos)
  have hlast : r.2.1 ≤ time.getD (time.length - 1) 0 := pairwiseLtLeLast hs r.2.1 ht1
  have hhead : time.getD 0 0 ≤ r.2.1 := by
    cases time with
    | nil => cases ht1
    | cons t0 ts =>
      have hh := pairwiseLtHeadLe hs r.2.1 ht1
      simpa using hh
  have hd2 := (linspace_mem_bounds (le_of_lt h1) hd).2
  refine ⟨hhead, hlast, ?_⟩
  rw [ht2]
  linarith

/-- Witness for the amended claim C9 at the ramp input. -/
theorem claim_C9_amended_witness :
    strictIncr [(0 : ℚ), 1] ∧
      calculate_HIC [(0 : ℚ), 1] [(0 : ℚ), 1] 5 4 = .ok (hicScore (1 / 2) 4, 0, 4) ∧
      (0 : ℝ) < hicScore (1 / 2) 4 ∧
      ((0 : ℚ) ≤ 0 ∧ (0 : ℚ) ≤ 1 ∧ (4 : ℚ) ≤ 1 + 5) := by
  have hst : strictIncr [(0 : ℚ), 1] := by
    norm_num [strictIncr, List.pairwise_cons]
  have hpos : (0 : ℝ) < hicScore (1 / 2) 4 := hicScore_pos (by norm_num) (by norm_num)
  exact ⟨hst, calculate_HIC_ramp, hpos,
    claim_C9_amended [(0 : ℚ), 1] [(0 : ℚ), 1] 5 4 (hicScore (1 / 2) 4, 0, 4) hst
      calculate_HIC_ramp hpos⟩

/-- Claim C10: whenever the returned score is strictly positive, t1 is one of
the input sample times and t2 = t1 + d for a strictly positive duration d
among the 100 linspace durations, so t2 - t1 lies exactly in [tmin, tmax]. -/
theorem claim_C10_result_structure (time g : List ℚ) (tmax tmin : ℚ) (r : Triple)
    (hok : calculate_HIC time g tmax tmin = .ok r) (hpos : 0 < r.1) :
    r.2.1 ∈ time ∧ ∃ d ∈ linspace tmin tmax 100,
      0 < d ∧ tmin ≤ d ∧ d ≤ tmax ∧ r.2.2 = r.2.1 + d := by
  obtain ⟨h0, h1, -⟩ := calculate_HIC_ok_elim hok
  obtain ⟨-, ht1, d, hd, ht2⟩ := result_shape h0 h1 (result_pos_mem hok hpos)
  obtain ⟨hd1, hd2⟩ := linspace_mem_bounds (le_of_lt h1) hd
  exact ⟨ht1, d, hd, lt_of_lt_of_le h0 hd1, hd1, hd2, ht2⟩

/-- Witness for claim C10 at the ramp input. -/
theorem claim_C10_result_structure_witness :
    calculate_HIC [(0 : ℚ), 1] [(0 : ℚ), 1] 5 4 = .ok (hicScore (1 / 2) 4, 0, 4) ∧
      (0 : ℝ) < hicScore (1 / 2) 4 ∧
      ((0 : ℚ) ∈ [(0 : ℚ), 1] ∧ ∃ d ∈ linspace (4 : ℚ) 5 100,
        0 < d ∧ (4 : ℚ) ≤ d ∧ d ≤ 5 ∧ (4 : ℚ) = 0 + d) := by
  have hpos : (0 : ℝ) < hicScore (1 / 2) 4 := hicScore_pos (by norm_num) (by norm_num)
  exact ⟨calculate_HIC_ramp, hpos,
    claim_C10_result_structure [(0 : ℚ), 1] [(0 : ℚ), 1] 5 4
      (hicScore (1 / 2) 4, 0, 4) calculate_HIC_ramp hpos⟩
